import Mathlib

/-!
Shallow embedding of the per-profile extraction pipeline and the two
aggregation steps of `src/03_web_as_data_ps/demo/webscrapping.py`.

Strings are modelled as `List Char` (wrapped into `String` at the edges).
Python regular-expression calls are embedded as deterministic matching
functions: for both patterns used by the script (the title pattern and the
e-mail pattern) greedy matching never needs to backtrack past a viable
continuation, so maximal-munch scanning is observationally equal to
Python's leftmost-match backtracking search; this is argued case by case
in the comments next to each matcher.
-/

/-- Whitespace for Python's `\s` and `str.strip` (the ASCII cases:
space, tab, newline, carriage return, vertical tab, form feed). -/
def pyIsSpace (c : Char) : Bool :=
  c = ' ' || c = '\t' || c = '\n' || c = '\r' || c = '\x0b' || c = '\x0c'

/-- Whitespace recognised by XPath `normalize-space` (space, tab, newline,
carriage return). -/
def xmlIsSpace (c : Char) : Bool :=
  c = ' ' || c = '\t' || c = '\n' || c = '\r'

/-- Python `str.strip()` on character lists: drop leading and trailing
whitespace. -/
def stripChars (l : List Char) : List Char :=
  ((l.dropWhile pyIsSpace).reverse.dropWhile pyIsSpace).reverse

/-- Python `str.strip()` on strings. -/
def pyStrip (s : String) : String := String.mk (stripChars s.data)

/-- Worker for `re.sub(r"\s+", " ", text)`: the flag records whether the
previous character belonged to a whitespace run already replaced by a
single space. -/
def collapseGo : Bool → List Char → List Char
  | _, [] => []
  | prev, c :: rest =>
    if pyIsSpace c then
      if prev then collapseGo true rest else ' ' :: collapseGo true rest
    else c :: collapseGo false rest

/-- Embedding of `re.sub(r"\s+", " ", text)`: every maximal whitespace run
becomes one space. -/
def pyCollapse (l : List Char) : List Char := collapseGo false l

/-- Embedding of `re.sub(r"\s+", " ", text).strip()` (lines 131-132 of the
script, applied to the joined body text). -/
def normalizeText (s : String) : String :=
  String.mk (stripChars (pyCollapse s.data))

/-- Embedding of `re.findall(pattern, text)` for a pattern whose
per-position matcher is `f`: scan left to right, record each match and
resume after it (after an empty match, resume one character later, as
Python does).  The recursion is driven by a fuel argument so the function
reduces in the kernel; `pyFindall` below always supplies enough fuel. -/
def pyFindallFuel (f : List Char → Option (List Char)) : Nat → List Char → List (List Char)
  | 0, _ => []
  | _ + 1, [] =>
    match f [] with
    | some m => [m]
    | none => []
  | fuel + 1, c :: rest =>
    match f (c :: rest) with
    | some m => m :: pyFindallFuel f fuel (rest.drop (m.length - 1))
    | none => pyFindallFuel f fuel rest

/-- Embedding of `re.findall` proper: `s.length + 1` steps always suffice,
since every step either consumes at least one character or reaches the end
of the text. -/
def pyFindall (f : List Char → Option (List Char)) (s : List Char) : List (List Char) :=
  pyFindallFuel f (s.length + 1) s

/-- Characters matched by `[^\n\r]`. -/
def notNL (c : Char) : Bool := !(c = '\n' || c = '\r')

/-- Greedy `[^\n\r]{0,120}` at the current position: up to 120 characters
that are not newline or carriage return. -/
def titleTail (s : List Char) : List Char :=
  (s.takeWhile notNL).take 120

/-- Attempt the `Associate\s+` branch of `(?:Associate\s+)?Professor`
at `s1` (which is already past `\s*`): on success, return the consumed
characters of the group together with the remainder starting at
`Professor`.  If `Associate` is present but not followed by whitespace
and `Professor`, the regex engine falls back to the empty group, and since
`s1` then starts with `A` the bare `Professor` cannot match either, so
returning `none` here and failing is faithful. -/
def assocMatch (s1 : List Char) : Option (List Char × List Char) :=
  if "Associate".data.isPrefixOf s1 then
    if (s1.drop 9).takeWhile pyIsSpace = [] then none
    else
      if "Professor".data.isPrefixOf ((s1.drop 9).dropWhile pyIsSpace) then
        some ("Associate".data ++ (s1.drop 9).takeWhile pyIsSpace,
          (s1.drop 9).dropWhile pyIsSpace)
      else none
  else none

/-- Match `\s*(?:Associate\s+)?Professor[^\n\r]{0,120}` at the start of
`s`, returning the consumed characters.  Maximal munch on `\s*` is
faithful: giving back a whitespace character would require `Associate` or
`Professor` to start with whitespace. -/
def titleCont (s : List Char) : Option (List Char) :=
  match assocMatch (s.dropWhile pyIsSpace) with
  | some (a, s3) =>
    some (s.takeWhile pyIsSpace ++ a ++ "Professor".data ++ titleTail (s3.drop 9))
  | none =>
    if "Professor".data.isPrefixOf (s.dropWhile pyIsSpace) then
      some (s.takeWhile pyIsSpace ++ "Professor".data ++
        titleTail ((s.dropWhile pyIsSpace).drop 9))
    else none

/-- Alternatives of the optional honorific/rank group of `title_pattern`
(line 136 of the script), in the order the regex tries them.  Their first
characters are pairwise distinct, so at most one can match at a given
position. -/
def titlePrefixes : List (List Char) :=
  ["Distinguished".data, "Liberal Arts".data, "Roy C.".data,
   "Arnold S.".data, "James P.".data]

/-- Match the whole `title_pattern` at the start of `s`.  The optional
group tries its alternatives in order and then the empty string; if the
unique literal alternative that is a prefix of `s` cannot be continued,
the engine falls back to the empty alternative at the same position. -/
def tryTitleAt (s : List Char) : Option (List Char) :=
  match titlePrefixes.find? (fun p => p.isPrefixOf s) with
  | some p =>
    match titleCont (s.drop p.length) with
    | some m => some (p ++ m)
    | none => titleCont s
  | none => titleCont s

/-- Characters of the local part of `email_pattern`
(`[A-Za-z0-9._%+-]`). -/
def isLocalChar (c : Char) : Bool :=
  c.isAlpha || c.isDigit || c = '.' || c = '_' || c = '%' || c = '+' || c = '-'

/-- Match `[A-Za-z0-9._%+-]+@psu\.edu` at the start of `s`.  Backtracking
inside the greedy `+` can never help: shrinking the local part puts a
local-part character where `@` is required. -/
def tryEmailAt (s : List Char) : Option (List Char) :=
  if (s.takeWhile isLocalChar).isEmpty then none
  else if "@psu.edu".data.isPrefixOf (s.drop (s.takeWhile isLocalChar).length) then
    some (s.takeWhile isLocalChar ++ "@psu.edu".data)
  else none

/-- Embedding of `" ".join(re.findall(p, t)[:1])`: the one-element join is
the element itself, the empty join is the empty string. -/
def joinFirst (ms : List (List Char)) : List Char :=
  List.intercalate [' '] (ms.take 1)

/-- Embedding of `" ".join(re.findall(title_pattern, text)[:1]).strip()`
(line 139 of the script). -/
def extractTitle (t : String) : String :=
  String.mk (stripChars (joinFirst (pyFindall tryTitleAt t.data)))

/-- Embedding of `" ".join(re.findall(email_pattern, text)[:1]).strip()`
(line 143 of the script). -/
def extractEmail (t : String) : String :=
  String.mk (stripChars (joinFirst (pyFindall tryEmailAt t.data)))

/-- Parsed markup: an element with a tag and an ordered child list, or a
text node.  This is the fragment of the lxml document tree the script's
XPath queries touch. -/
inductive Node where
  | elem : String → List Node → Node
  | text : String → Node

mutual

/-- Document-order contents of the descendant text nodes of a node
(XPath `.//text()`). -/
def textNodes : Node → List String
  | Node.text s => [s]
  | Node.elem _ cs => textNodesList cs

/-- Document-order contents of the descendant text nodes of a forest. -/
def textNodesList : List Node → List String
  | [] => []
  | c :: cs => textNodes c ++ textNodesList cs

end

/-- XPath `normalize-space`: collapse runs of XML whitespace to single
spaces and strip the ends. -/
def xmlNormGo : Bool → List Char → List Char
  | _, [] => []
  | prev, c :: rest =>
    if xmlIsSpace c then
      if prev then xmlNormGo true rest else ' ' :: xmlNormGo true rest
    else c :: xmlNormGo false rest

/-- XPath `normalize-space` on a string: collapse, then strip both ends
(after collapsing, the leading run is at most one space). -/
def xmlNormalize (s : String) : String :=
  String.mk ((((xmlNormGo false s.data).dropWhile xmlIsSpace).reverse.dropWhile
    xmlIsSpace).reverse)

/-- XPath string value of a node: the concatenation of its descendant
text nodes. -/
def stringValue (n : Node) : String := String.join (textNodes n)

/-- Test for `h2[normalize-space()='Areas of Interest']`. -/
def isAreasH2 (n : Node) : Bool :=
  match n with
  | Node.elem tag _ => tag = "h2" && xmlNormalize (stringValue n) = "Areas of Interest"
  | Node.text _ => false

/-- Test for `h2[normalize-space()='Research Interests']` or
`h3[normalize-space()='Research Interests']`. -/
def isResearchHeading (n : Node) : Bool :=
  match n with
  | Node.elem tag _ =>
    (tag = "h2" || tag = "h3") && xmlNormalize (stringValue n) = "Research Interests"
  | Node.text _ => false

/-- Test for an element node with the given tag. -/
def isTag (t : String) (n : Node) : Bool :=
  match n with
  | Node.elem tag _ => tag = t
  | Node.text _ => false

/-- Test for an element node of any tag (XPath `*`). -/
def isElem (n : Node) : Bool :=
  match n with
  | Node.elem _ _ => true
  | Node.text _ => false

/-- XPath `following-sibling::ul[1]` relative to the head of a sibling
list: the first later sibling that is a `ul` element. -/
def firstUl : List Node → Option Node
  | [] => none
  | c :: rest => if isTag "ul" c then some c else firstUl rest

/-- XPath `following-sibling::*[1]`: the first later sibling that is an
element of any tag. -/
def firstElem : List Node → Option Node
  | [] => none
  | c :: rest => if isElem c then some c else firstElem rest

/-- XPath `li//text()` over the children of a `ul` node: descendant text
of the `li` children, in document order. -/
def liTexts (n : Node) : List String :=
  match n with
  | Node.elem _ cs => (cs.filter (isTag "li")).flatMap textNodes
  | Node.text _ => []

mutual

/-- Raw results of the query on line 146-148 of the script,
`//h2[normalize-space()='Areas of Interest']/following-sibling::ul[1]/li//text()`:
for every matching `h2` anywhere in the tree, the `li` texts of the first
`ul` among its later siblings. -/
def areasRaw : Node → List String
  | Node.text _ => []
  | Node.elem _ cs => areasRawSibs cs

/-- Worker of `areasRaw` over a sibling list. -/
def areasRawSibs : List Node → List String
  | [] => []
  | c :: rest =>
    (if isAreasH2 c then
      match firstUl rest with
      | some ul => liTexts ul
      | none => []
    else []) ++ areasRaw c ++ areasRawSibs rest

end

mutual

/-- Raw results of the query on lines 152-155 of the script: for every
`h2` or `h3` anywhere in the tree whose normalized text is
`Research Interests`, the descendant texts of the first element among its
later siblings. -/
def researchRaw : Node → List String
  | Node.text _ => []
  | Node.elem _ cs => researchRawSibs cs

/-- Worker of `researchRaw` over a sibling list. -/
def researchRawSibs : List Node → List String
  | [] => []
  | c :: rest =>
    (if isResearchHeading c then
      match firstElem rest with
      | some e => textNodes e
      | none => []
    else []) ++ researchRaw c ++ researchRawSibs rest

end

mutual

/-- Whether some descendant-or-self node is an `Areas of Interest` level-2
heading (used to state the `no such heading` case of the first query). -/
def hasAreasH2 : Node → Bool
  | Node.text _ => false
  | Node.elem tag cs => isAreasH2 (Node.elem tag cs) || hasAreasH2List cs

/-- Forest version of `hasAreasH2`. -/
def hasAreasH2List : List Node → Bool
  | [] => false
  | c :: cs => hasAreasH2 c || hasAreasH2List cs

end

/-- Embedding of `list(filter(None, map(str.strip, texts)))` (lines 149,
156): strip every string, drop the ones that became empty. -/
def cleanTexts (l : List String) : List String :=
  (l.map pyStrip).filter (fun s => !(s = ""))

/-- Cleaned results of the `Areas of Interest` query (line 149). -/
def areasQuery (n : Node) : List String := cleanTexts (areasRaw n)

/-- Cleaned results of the `Research Interests` query (line 156). -/
def researchQuery (n : Node) : List String := cleanTexts (researchRaw n)

/-- Combined interest list (line 159): `matt_areas + matt_research`. -/
def interestsList (n : Node) : List String := areasQuery n ++ researchQuery n

/-- Count of interest items (line 163). -/
def nInterestItems (n : Node) : Nat := (interestsList n).length

/-- Normalized full page text (lines 131-132):
`" ".join(tree.xpath("//body//text()"))` followed by whitespace collapse
and strip.  The script's `//body//text()` is modelled as the text nodes of
the document tree handed to the extractor. -/
def fullText (n : Node) : String :=
  normalizeText (String.intercalate " " (textNodes n))

/-- Row of the per-subject profile table (lines 166-174). -/
structure ProfileRow where
  name : String
  department : String
  url : String
  scraped_title : String
  scraped_email : String
  scraped_interests : String
  n_interest_items : Nat
deriving DecidableEq

/-- Embedding of one full per-subject extraction (steps 1-10 of the
script) from a parsed document. -/
def mkRow (name dept url : String) (doc : Node) : ProfileRow :=
  { name := name
    department := dept
    url := url
    scraped_title := extractTitle (fullText doc)
    scraped_email := extractEmail (fullText doc)
    scraped_interests := String.intercalate "; " (interestsList doc)
    n_interest_items := nInterestItems doc }

/-- Embedding of `pd.concat([matt_row, ..., jeremy_row], ignore_index=True)`
(line 294): the per-subject one-row tables in input order. -/
def scrapedProfiles (rows : List ProfileRow) : List ProfileRow :=
  rows.flatMap (fun r => [r])

/-- Embedding of `scraped_profiles.sort_values("n_interest_items")`
(line 307): the same rows sorted ascending by interest count. -/
def scrapedProfilesSorted (rows : List ProfileRow) : List ProfileRow :=
  List.insertionSort (fun a b => a.n_interest_items ≤ b.n_interest_items)
    (scrapedProfiles rows)

/-- Row of the long-form citation table (lines 437-453): subject name,
year, citation count for that year. -/
structure CiteRow where
  name : String
  year : Int
  cites : Int
deriving DecidableEq

/-- Embedding of `.sort_values("year")` on a per-subject citation table:
sort the `(year, cites)` pairs ascending by year. -/
def sortByYear (m : List (Int × Int)) : List (Int × Int) :=
  List.insertionSort (fun a b => a.1 ≤ b.1) m

/-- Embedding of one per-subject block (e.g. lines 437-439):
`pd.DataFrame(list(cites_per_year.items()))`, a `name` column, and
`.sort_values("year")`. -/
def subjectCT (name : String) (m : List (Int × Int)) : List CiteRow :=
  (sortByYear m).map (fun p => { name := name, year := p.1, cites := p.2 })

/-- Embedding of `pd.concat([matt_ct, sona_ct, derek_ct, jeremy_ct],
ignore_index=True)` (line 453): the per-subject blocks in subject order. -/
def citationDF (subs : List (String × List (Int × Int))) : List CiteRow :=
  subs.flatMap (fun s => subjectCT s.1 s.2)

/-- Median of a list of rationals in the pandas sense: sort, take the
middle element for odd length, the mean of the two middle elements for
even length.  (The script only ever applies it to nonempty groups;
on `[]` this returns `0` where pandas would return NaN.) -/
def qmedian (l : List ℚ) : ℚ :=
  let s := List.insertionSort (fun a b => a ≤ b) l
  if l.length % 2 = 1 then s.getD (l.length / 2) 0
  else (s.getD (l.length / 2 - 1) 0 + s.getD (l.length / 2) 0) / 2

/-- Group keys of `citation_df.groupby("name")`: the distinct subject
names, in ascending order (pandas sorts group keys). -/
def namesOf (rows : List CiteRow) : List String :=
  List.insertionSort (fun a b => a ≤ b) (rows.map (fun r => r.name)).dedup

/-- Embedding of
`citation_df.groupby("name", as_index=False)["cites"].median()`
(lines 481-486): one `(name, median of that name's cites)` pair per
distinct subject name. -/
def medianCites (rows : List CiteRow) : List (String × ℚ) :=
  (namesOf rows).map (fun n =>
    (n, qmedian ((rows.filter (fun r => r.name = n)).map (fun r => (r.cites : ℚ)))))

/-!
Helper lemmas about stripping and collapsing whitespace.
-/

/-- Relation stating that two adjacent characters are not both
whitespace. -/
def noTwoSpaces (a b : Char) : Prop :=
  ¬(pyIsSpace a = true ∧ pyIsSpace b = true)

theorem stripChars_within (l : List Char) : stripChars l <:+: l := by
  unfold stripChars
  have h1 : l.dropWhile pyIsSpace <:+ l := List.dropWhile_suffix _
  have h2 : (l.dropWhile pyIsSpace).reverse.dropWhile pyIsSpace <:+
      (l.dropWhile pyIsSpace).reverse := List.dropWhile_suffix _
  have h3 := List.reverse_prefix.mpr h2
  rw [List.reverse_reverse] at h3
  exact List.infix_iff_prefix_suffix.mpr ⟨_, h3, h1⟩

theorem stripChars_head? (l : List Char) :
    ∀ c, (stripChars l).head? = some c → pyIsSpace c = false := by
  intro c hc
  unfold stripChars at hc
  rw [List.head?_reverse] at hc
  obtain ⟨t, ht⟩ : (l.dropWhile pyIsSpace).reverse.dropWhile pyIsSpace <:+
      (l.dropWhile pyIsSpace).reverse := List.dropWhile_suffix _
  have hvne : (l.dropWhile pyIsSpace).reverse.dropWhile pyIsSpace ≠ [] := by
    intro h
    rw [h] at hc
    simp at hc
  have hlast : (l.dropWhile pyIsSpace).reverse.getLast? = some c := by
    rw [← ht, List.getLast?_append_of_ne_nil t hvne]
    exact hc
  rw [List.getLast?_reverse] at hlast
  have h2 := List.head?_dropWhile_not pyIsSpace l
  rw [hlast] at h2
  simpa using h2

theorem stripChars_getLast? (l : List Char) :
    ∀ c, (stripChars l).getLast? = some c → pyIsSpace c = false := by
  intro c hc
  unfold stripChars at hc
  rw [List.getLast?_reverse] at hc
  have h2 := List.head?_dropWhile_not pyIsSpace (l.dropWhile pyIsSpace).reverse
  rw [hc] at h2
  simpa using h2

theorem collapseGo_true_head (l : List Char) :
    ∀ c, (collapseGo true l).head? = some c → pyIsSpace c = false := by
  induction l with
  | nil => intro c hc; simp [collapseGo] at hc
  | cons x xs ih =>
    intro c hc
    by_cases hx : pyIsSpace x
    · rw [collapseGo, if_pos hx, if_pos rfl] at hc
      exact ih c hc
    · rw [collapseGo, if_neg hx] at hc
      simp at hc
      subst hc
      exact Bool.eq_false_iff.mpr hx

theorem collapseGo_chain (l : List Char) :
    ∀ b, List.Chain' noTwoSpaces (collapseGo b l) := by
  induction l with
  | nil => intro b; simp [collapseGo]
  | cons x xs ih =>
    intro b
    by_cases hx : pyIsSpace x
    · cases b with
      | true =>
        rw [collapseGo, if_pos hx, if_pos rfl]
        exact ih true
      | false =>
        rw [collapseGo, if_pos hx, if_neg (by simp)]
        refine List.chain'_cons'.mpr ⟨?_, ih true⟩
        intro y hy
        have := collapseGo_true_head xs y hy
        intro hcon
        rw [this] at hcon
        exact Bool.false_ne_true hcon.2
    · rw [collapseGo, if_neg hx]
      refine List.chain'_cons'.mpr ⟨?_, ih false⟩
      intro y _
      intro hcon
      exact hx hcon.1

theorem collapseGo_space_eq (l : List Char) :
    ∀ b, ∀ c ∈ collapseGo b l, pyIsSpace c = true → c = ' ' := by
  induction l with
  | nil => intro b c hc; simp [collapseGo] at hc
  | cons x xs ih =>
    intro b c hc hsp
    by_cases hx : pyIsSpace x
    · cases b with
      | true =>
        rw [collapseGo, if_pos hx, if_pos rfl] at hc
        exact ih true c hc hsp
      | false =>
        rw [collapseGo, if_pos hx, if_neg (by simp)] at hc
        rcases List.mem_cons.mp hc with h | h
        · exact h
        · exact ih true c h hsp
    · rw [collapseGo, if_neg hx] at hc
      rcases List.mem_cons.mp hc with h | h
      · rw [h] at hsp
        exact absurd hsp hx
      · exact ih false c h hsp

/-- Claim C4: whitespace normalization collapses every run of
whitespace to a single space and leaves no leading or trailing
whitespace: in the normalized text no two adjacent characters are both
whitespace, every whitespace character is a plain space, and the first
and last characters are not whitespace. -/
theorem spec_C4 (t : String) :
    List.Chain' noTwoSpaces (normalizeText t).data ∧
    (∀ c, (normalizeText t).data.head? = some c → pyIsSpace c = false) ∧
    (∀ c, (normalizeText t).data.getLast? = some c → pyIsSpace c = false) ∧
    (∀ c ∈ (normalizeText t).data, pyIsSpace c = true → c = ' ') := by
  have hdata : (normalizeText t).data = stripChars (pyCollapse t.data) := rfl
  rw [hdata]
  refine ⟨?_, stripChars_head? _, stripChars_getLast? _, ?_⟩
  · exact List.Chain'.infix (collapseGo_chain t.data false) (stripChars_within _)
  · intro c hc hsp
    exact collapseGo_space_eq t.data false c ((stripChars_within _).sublist.subset hc) hsp

/-- Witness for C4 at a concrete input: `" a\t\tb "` normalizes to a
string whose adjacent characters are never both whitespace, and whose
first character `a` is not whitespace. -/
theorem spec_C4_witness :
    List.Chain' noTwoSpaces (normalizeText " a\t\tb ").data ∧ pyIsSpace 'a' = false := by
  refine ⟨(spec_C4 " a\t\tb ").1, ?_⟩
  exact (spec_C4 " a\t\tb ").2.1 'a' (by decide)

/-!
Helper lemmas about the findall scan and the two matchers.
-/

theorem pyFindallFuel_eq_nil (f : List Char → Option (List Char)) :
    ∀ (fuel : Nat) (s : List Char), (∀ i, f (s.drop i) = none) →
      pyFindallFuel f fuel s = [] := by
  intro fuel
  induction fuel with
  | zero => intro s _; rfl
  | succ n ih =>
    intro s h
    cases s with
    | nil =>
      have h0 := h 0
      simp only [List.drop_nil] at h0
      simp [pyFindallFuel, h0]
    | cons c rest =>
      have h0 := h 0
      simp only [List.drop_zero] at h0
      simp only [pyFindallFuel, h0]
      exact ih rest (fun i => by simpa using h (i + 1))

theorem pyFindall_eq_nil (f : List Char → Option (List Char)) (s : List Char)
    (h : ∀ i, f (s.drop i) = none) : pyFindall f s = [] :=
  pyFindallFuel_eq_nil f (s.length + 1) s h

theorem pyFindallFuel_head (f : List Char → Option (List Char)) :
    ∀ (i fuel : Nat) (s m : List Char), s.length < fuel →
      f (s.drop i) = some m → (∀ j, j < i → f (s.drop j) = none) →
      (pyFindallFuel f fuel s).head? = some m := by
  intro i
  induction i with
  | zero =>
    intro fuel s m hfuel hf _
    cases fuel with
    | zero => exact absurd hfuel (Nat.not_lt_zero _)
    | succ n =>
      cases s with
      | nil =>
        simp only [List.drop_nil] at hf
        simp [pyFindallFuel, hf]
      | cons c rest =>
        simp only [List.drop_zero] at hf
        simp [pyFindallFuel, hf]
  | succ k ih =>
    intro fuel s m hfuel hf hj
    have h0 := hj 0 (Nat.succ_pos k)
    cases s with
    | nil =>
      simp only [List.drop_nil] at hf h0
      rw [h0] at hf
      exact absurd hf (by simp)
    | cons c rest =>
      cases fuel with
      | zero => exact absurd hfuel (Nat.not_lt_zero _)
      | succ n =>
        simp only [List.drop_zero] at h0
        simp only [pyFindallFuel, h0]
        have hlen : rest.length < n := by
          simp only [List.length_cons] at hfuel
          omega
        have hf' : f (rest.drop k) = some m := by
          simpa [List.drop_succ_cons] using hf
        have hj' : ∀ j, j < k → f (rest.drop j) = none := by
          intro j hjk
          simpa [List.drop_succ_cons] using hj (j + 1) (Nat.succ_lt_succ hjk)
        exact ih n rest m hlen hf' hj'

theorem pyFindall_head (f : List Char → Option (List Char)) (i : Nat) (s m : List Char)
    (hf : f (s.drop i) = some m) (hj : ∀ j, j < i → f (s.drop j) = none) :
    (pyFindall f s).head? = some m :=
  pyFindallFuel_head f i (s.length + 1) s m (Nat.lt_succ_self _) hf hj

theorem pyFindallFuel_head_exists (f : List Char → Option (List Char)) :
    ∀ (fuel : Nat) (s m : List Char), (pyFindallFuel f fuel s).head? = some m →
      ∃ i, f (s.drop i) = some m := by
  intro fuel
  induction fuel with
  | zero => intro s m h; simp [pyFindallFuel] at h
  | succ n ih =>
    intro s m h
    cases s with
    | nil =>
      cases hf : f [] with
      | some m' =>
        simp only [pyFindallFuel, hf, List.head?_cons] at h
        exact ⟨0, by simp [hf, h]⟩
      | none => simp [pyFindallFuel, hf] at h
    | cons c rest =>
      cases hf : f (c :: rest) with
      | some m' =>
        simp only [pyFindallFuel, hf, List.head?_cons] at h
        exact ⟨0, by simp [hf, h]⟩
      | none =>
        simp only [pyFindallFuel, hf] at h
        obtain ⟨i, hi⟩ := ih rest m h
        exact ⟨i + 1, by simpa [List.drop_succ_cons] using hi⟩

theorem joinFirst_cons (m : List Char) (ms : List (List Char)) :
    joinFirst (m :: ms) = m := by
  simp [joinFirst, List.intercalate]

theorem pyIsSpace_localChar (c : Char) (h : pyIsSpace c = true) :
    isLocalChar c = false := by
  simp only [pyIsSpace, Bool.or_eq_true, decide_eq_true_eq] at h
  rcases h with ((((rfl | rfl) | rfl) | rfl) | rfl) | rfl <;> decide

theorem tryEmailAt_no_space (s m : List Char) (h : tryEmailAt s = some m) :
    ∀ c ∈ m, pyIsSpace c = false := by
  unfold tryEmailAt at h
  split at h
  · exact absurd h (by simp)
  · split at h
    · simp only [Option.some.injEq] at h
      subst h
      intro c hc
      rcases List.mem_append.mp hc with hc | hc
      · have hl := List.mem_takeWhile_imp hc
        cases hsp : pyIsSpace c with
        | false => rfl
        | true => rw [pyIsSpace_localChar c hsp] at hl; exact absurd hl (by simp)
      · revert hc
        have : ∀ c ∈ "@psu.edu".data, pyIsSpace c = false := by decide
        exact this c
    · exact absurd h (by simp)

theorem stripChars_eq_self_of (l : List Char) (h : ∀ c ∈ l, pyIsSpace c = false) :
    stripChars l = l := by
  have h1 : l.dropWhile pyIsSpace = l := by
    cases l with
    | nil => rfl
    | cons x xs =>
      rw [List.dropWhile_cons, h x (List.mem_cons_self x xs)]
      simp
  unfold stripChars
  rw [h1]
  have h2 : l.reverse.dropWhile pyIsSpace = l.reverse := by
    cases hrev : l.reverse with
    | nil => rfl
    | cons x xs =>
      have hx : x ∈ l := by
        rw [← List.mem_reverse, hrev]
        exact List.mem_cons_self _ _
      rw [List.dropWhile_cons, h x hx]
      simp
  rw [h2, List.reverse_reverse]

theorem titleTail_length (s : List Char) : (titleTail s).length ≤ 120 :=
  List.length_take_le _ _

theorem titleTail_mem (s : List Char) : ∀ c ∈ titleTail s, notNL c = true := by
  intro c hc
  exact List.mem_takeWhile_imp ((List.take_sublist _ _).subset hc)

theorem titleCont_shape (s m : List Char) (h : titleCont s = some m) :
    ∃ u v, m = u ++ "Professor".data ++ v ∧ v.length ≤ 120 ∧
      ∀ c ∈ v, notNL c = true := by
  unfold titleCont at h
  cases hA : assocMatch (s.dropWhile pyIsSpace) with
  | some pr =>
    rw [hA] at h
    obtain ⟨a, s3⟩ := pr
    have h' : s.takeWhile pyIsSpace ++ a ++ "Professor".data ++ titleTail (s3.drop 9) = m :=
      Option.some.inj h
    refine ⟨s.takeWhile pyIsSpace ++ a, titleTail (s3.drop 9), ?_,
      titleTail_length _, titleTail_mem _⟩
    rw [← h']
  | none =>
    rw [hA] at h
    have h' : (if "Professor".data.isPrefixOf (s.dropWhile pyIsSpace) = true then
        some (s.takeWhile pyIsSpace ++ "Professor".data ++
          titleTail ((s.dropWhile pyIsSpace).drop 9))
      else none) = some m := h
    split at h'
    · have h'' := Option.some.inj h'
      refine ⟨s.takeWhile pyIsSpace, titleTail ((s.dropWhile pyIsSpace).drop 9), ?_,
        titleTail_length _, titleTail_mem _⟩
      rw [← h'']
    · exact absurd h' (by simp)

theorem tryTitleAt_shape (s m : List Char) (h : tryTitleAt s = some m) :
    ∃ u v, m = u ++ "Professor".data ++ v ∧ v.length ≤ 120 ∧
      ∀ c ∈ v, notNL c = true := by
  unfold tryTitleAt at h
  cases hp : titlePrefixes.find? (fun p => p.isPrefixOf s) with
  | none =>
    rw [hp] at h
    exact titleCont_shape s m h
  | some p =>
    rw [hp] at h
    have h' : (match titleCont (s.drop p.length) with
      | some m0 => some (p ++ m0)
      | none => titleCont s) = some m := h
    cases hc : titleCont (s.drop p.length) with
    | some m' =>
      rw [hc] at h'
      have h'' : p ++ m' = m := Option.some.inj h'
      obtain ⟨u, v, hm, hv, hnl⟩ := titleCont_shape _ _ hc
      refine ⟨p ++ u, v, ?_, hv, hnl⟩
      rw [← h'', hm]
      simp [List.append_assoc]
    | none =>
      rw [hc] at h'
      exact titleCont_shape s m h'

/-- Claim C2: title extraction keeps only the first match of the title
pattern — the result is the stripped first element of the findall list
regardless of how many later matches exist, it is the stripped leftmost
match of `tryTitleAt` over all start positions, it is empty when there is
no match, and every first match consists of some prefix, the literal
`Professor`, and at most 120 trailing non-newline characters. -/
theorem spec_C2 (t : String) :
    (pyFindall tryTitleAt t.data = [] → extractTitle t = "") ∧
    (∀ m ms, pyFindall tryTitleAt t.data = m :: ms →
      extractTitle t = String.mk (stripChars m)) ∧
    (∀ m ms, pyFindall tryTitleAt t.data = m :: ms →
      ∃ u v, m = u ++ "Professor".data ++ v ∧ v.length ≤ 120 ∧
        ∀ c ∈ v, notNL c = true) ∧
    (∀ i m, tryTitleAt (t.data.drop i) = some m →
      (∀ j, j < i → tryTitleAt (t.data.drop j) = none) →
      extractTitle t = String.mk (stripChars m)) ∧
    ((∀ i, tryTitleAt (t.data.drop i) = none) → extractTitle t = "") := by
  refine ⟨?_, ?_, ?_, ?_, ?_⟩
  · intro h
    unfold extractTitle
    rw [h]
    decide
  · intro m ms h
    unfold extractTitle
    rw [h, joinFirst_cons]
  · intro m ms h
    have hh : (pyFindall tryTitleAt t.data).head? = some m := by rw [h]; rfl
    obtain ⟨i, hi⟩ := pyFindallFuel_head_exists tryTitleAt (t.data.length + 1) t.data m hh
    exact tryTitleAt_shape _ _ hi
  · intro i m hf hj
    have hh : (pyFindall tryTitleAt t.data).head? = some m :=
      pyFindall_head tryTitleAt i t.data m hf hj
    cases hfa : pyFindall tryTitleAt t.data with
    | nil => rw [hfa] at hh; exact absurd hh (by simp)
    | cons m0 ms =>
      rw [hfa] at hh
      simp only [List.head?_cons, Option.some.injEq] at hh
      unfold extractTitle
      rw [hfa, joinFirst_cons, hh]
  · intro h
    unfold extractTitle
    rw [pyFindall_eq_nil tryTitleAt t.data h]
    decide

/-- Witness for C2 at a concrete input: in
`"He is a Distinguished Professor of Things"` the leftmost match starts
at index 8 and the extracted title is
`"Distinguished Professor of Things"`. -/
theorem spec_C2_witness :
    extractTitle "He is a Distinguished Professor of Things" =
      "Distinguished Professor of Things" := by
  have h := (spec_C2 "He is a Distinguished Professor of Things").2.2.2.1 8
    "Distinguished Professor of Things".data (by decide) (by decide)
  rw [h]
  decide

/-- Claim C3: e-mail extraction returns the stripped first (leftmost by
text position) match of the `psu.edu` pattern, which is the match itself
since a match never contains whitespace, and the empty string when there
is no match at any position. -/
theorem spec_C3 (t : String) :
    (pyFindall tryEmailAt t.data = [] → extractEmail t = "") ∧
    ((∀ i, tryEmailAt (t.data.drop i) = none) → extractEmail t = "") ∧
    (∀ i m, tryEmailAt (t.data.drop i) = some m →
      (∀ j, j < i → tryEmailAt (t.data.drop j) = none) →
      extractEmail t = String.mk m) := by
  refine ⟨?_, ?_, ?_⟩
  · intro h
    unfold extractEmail
    rw [h]
    decide
  · intro h
    unfold extractEmail
    rw [pyFindall_eq_nil tryEmailAt t.data h]
    decide
  · intro i m hf hj
    have hh : (pyFindall tryEmailAt t.data).head? = some m :=
      pyFindall_head tryEmailAt i t.data m hf hj
    cases hfa : pyFindall tryEmailAt t.data with
    | nil => rw [hfa] at hh; exact absurd hh (by simp)
    | cons m0 ms =>
      rw [hfa] at hh
      simp only [List.head?_cons, Option.some.injEq] at hh
      unfold extractEmail
      rw [hfa, joinFirst_cons, hh,
        stripChars_eq_self_of m (tryEmailAt_no_space _ m hf)]

/-- Witness for C3 at a concrete input with two qualifying addresses:
only the first one, `ab@psu.edu`, is returned. -/
theorem spec_C3_witness :
    extractEmail "ab@psu.edu cd@psu.edu" = "ab@psu.edu" := by
  have h := (spec_C3 "ab@psu.edu cd@psu.edu").2.2 0 "ab@psu.edu".data
    (by decide) (by decide)
  rw [h]

/-- Claim C10: the e-mail pattern has no right-hand boundary after
`psu.edu`: on a text containing `jane@psu.education` the extractor
returns `jane@psu.edu`, a strict prefix of the longer token. -/
theorem spec_C10 :
    extractEmail "see jane@psu.education today" = "jane@psu.edu" ∧
    "jane@psu.edu".data.isPrefixOf "jane@psu.education".data = true ∧
    "jane@psu.edu" ≠ "jane@psu.education" := by
  decide

theorem stripChars_eq_self_of_ends (l : List Char)
    (hh : ∀ c, l.head? = some c → pyIsSpace c = false)
    (hl : ∀ c, l.getLast? = some c → pyIsSpace c = false) :
    stripChars l = l := by
  have h1 : l.dropWhile pyIsSpace = l := by
    cases l with
    | nil => rfl
    | cons x xs =>
      rw [List.dropWhile_cons, hh x rfl]
      simp
  unfold stripChars
  rw [h1]
  have h2 : l.reverse.dropWhile pyIsSpace = l.reverse := by
    cases hrev : l.reverse with
    | nil => rfl
    | cons x xs =>
      have hx : l.getLast? = some x := by
        rw [← List.head?_reverse, hrev]
        rfl
      rw [List.dropWhile_cons, hl x hx]
      simp
  rw [h2, List.reverse_reverse]

theorem stripChars_idem (l : List Char) : stripChars (stripChars l) = stripChars l :=
  stripChars_eq_self_of_ends _ (stripChars_head? l) (stripChars_getLast? l)

theorem pyStrip_idem (s : String) : pyStrip (pyStrip s) = pyStrip s := by
  unfold pyStrip
  rw [show (String.mk (stripChars s.data)).data = stripChars s.data from rfl,
    stripChars_idem]

theorem cleanTexts_mem (l : List String) (s : String) (h : s ∈ cleanTexts l) :
    pyStrip s = s ∧ s ≠ "" := by
  unfold cleanTexts at h
  have h1 := List.mem_filter.mp h
  obtain ⟨x, _, hx⟩ := List.mem_map.mp h1.1
  constructor
  · rw [← hx]
    exact pyStrip_idem x
  · simpa using h1.2

/-- Claim C5: extraction never fails the run — when the title or e-mail
pattern has no match the extracted field is the empty string, when a
structural query returns nothing the cleaned interest list is empty, and
the per-subject row is always well-formed (its count field is the length
of its interest list and its interests field is the semicolon join of
that list). -/
theorem spec_C5 (t : String) (doc : Node) (name dept url : String) :
    (pyFindall tryTitleAt t.data = [] → extractTitle t = "") ∧
    (pyFindall tryEmailAt t.data = [] → extractEmail t = "") ∧
    (areasRaw doc = [] → areasQuery doc = []) ∧
    (researchRaw doc = [] → researchQuery doc = []) ∧
    (mkRow name dept url doc).n_interest_items = (interestsList doc).length ∧
    (mkRow name dept url doc).scraped_interests =
      String.intercalate "; " (interestsList doc) := by
  refine ⟨?_, ?_, ?_, ?_, rfl, rfl⟩
  · intro h
    unfold extractTitle
    rw [h]
    decide
  · intro h
    unfold extractEmail
    rw [h]
    decide
  · intro h
    unfold areasQuery
    rw [h]
    rfl
  · intro h
    unfold researchQuery
    rw [h]
    rfl

/-- Witness for C5 at concrete inputs containing no title, no e-mail and
no interest headings: every extracted field is empty, no error value is
produced. -/
theorem spec_C5_witness :
    extractTitle "nothing to see here" = "" ∧
    extractEmail "nothing to see here" = "" ∧
    areasQuery (Node.elem "body" [Node.text "no headings here"]) = [] := by
  refine ⟨?_, ?_, ?_⟩
  · exact (spec_C5 "nothing to see here" (Node.text "") "" "" "").1 (by decide)
  · exact (spec_C5 "nothing to see here" (Node.text "") "" "" "").2.1 (by decide)
  · exact (spec_C5 "" (Node.elem "body" [Node.text "no headings here"]) "" "" "").2.2.1
      (by decide)

/-- Claim C6: the interest list is the cleaned `Areas of Interest` query
results followed by the cleaned `Research Interests` query results, in
that order; the interest count is the length of the concatenation; and
every kept item is already stripped and non-empty. -/
theorem spec_C6 (doc : Node) :
    interestsList doc = areasQuery doc ++ researchQuery doc ∧
    nInterestItems doc = (areasQuery doc).length + (researchQuery doc).length ∧
    ∀ s ∈ interestsList doc, pyStrip s = s ∧ s ≠ "" := by
  refine ⟨rfl, ?_, ?_⟩
  · unfold nInterestItems interestsList
    exact List.length_append _ _
  · intro s hs
    unfold interestsList at hs
    rcases List.mem_append.mp hs with h | h
    · exact cleanTexts_mem _ s h
    · exact cleanTexts_mem _ s h

/-- Witness for C6 at a concrete document: the kept item `Voting` is
already stripped and non-empty. -/
theorem spec_C6_witness :
    pyStrip "Voting" = "Voting" ∧ "Voting" ≠ "" := by
  exact (spec_C6 (Node.elem "body"
    [Node.elem "h2" [Node.text "Areas of Interest"],
     Node.elem "ul" [Node.elem "li" [Node.text " Voting "]]])).2.2 "Voting" (by decide)

/-!
Helper lemmas about the `Areas of Interest` query.
-/

theorem isAreasH2_false_of (n : Node) (h : hasAreasH2 n = false) :
    isAreasH2 n = false := by
  cases n with
  | text s => rfl
  | elem t cs =>
    simp only [hasAreasH2, Bool.or_eq_false_iff] at h
    exact h.1

mutual

theorem areasRaw_nil : ∀ (n : Node), hasAreasH2 n = false → areasRaw n = []
  | Node.text _, _ => rfl
  | Node.elem t cs, h => by
    have hcs : hasAreasH2List cs = false := by
      simp only [hasAreasH2, Bool.or_eq_false_iff] at h
      exact h.2
    simp only [areasRaw]
    exact areasRawSibs_nil cs hcs

theorem areasRawSibs_nil : ∀ (l : List Node), hasAreasH2List l = false → areasRawSibs l = []
  | [], _ => rfl
  | c :: rest, h => by
    have h12 : hasAreasH2 c = false ∧ hasAreasH2List rest = false := by
      simp only [hasAreasH2List, Bool.or_eq_false_iff] at h
      exact h
    simp only [areasRawSibs]
    simp [isAreasH2_false_of c h12.1, areasRaw_nil c h12.1, areasRawSibs_nil rest h12.2]

end

theorem hasAreasH2List_append (l1 l2 : List Node) :
    hasAreasH2List (l1 ++ l2) = (hasAreasH2List l1 || hasAreasH2List l2) := by
  induction l1 with
  | nil => simp [hasAreasH2List]
  | cons c cs ih => simp [hasAreasH2List, ih, Bool.or_assoc]

theorem firstUl_append_of_no_ul (mid : List Node)
    (h : ∀ n ∈ mid, isTag "ul" n = false) (rest : List Node) :
    firstUl (mid ++ rest) = firstUl rest := by
  induction mid with
  | nil => rfl
  | cons c cs ih =>
    rw [List.cons_append]
    simp only [firstUl, h c (List.mem_cons_self _ _)]
    simp only [Bool.false_eq_true, if_false]
    exact ih (fun n hn => h n (List.mem_cons_of_mem _ hn))

theorem areasRawSibs_family (pre mid post hcs items : List Node)
    (hhead : isAreasH2 (Node.elem "h2" hcs) = true)
    (hpre : hasAreasH2List pre = false)
    (hhc : hasAreasH2List hcs = false)
    (hmid : hasAreasH2List mid = false)
    (hmidul : ∀ n ∈ mid, isTag "ul" n = false)
    (hitems : hasAreasH2List items = false)
    (hpost : hasAreasH2List post = false) :
    areasRawSibs (pre ++ Node.elem "h2" hcs :: mid ++ Node.elem "ul" items :: post)
      = liTexts (Node.elem "ul" items) := by
  induction pre with
  | nil =>
    rw [List.nil_append]
    simp only [areasRawSibs, hhead, if_true, List.append_eq]
    rw [firstUl_append_of_no_ul mid hmidul]
    simp only [firstUl, isTag]
    have hul : hasAreasH2 (Node.elem "ul" items) = false := by
      simp [hasAreasH2, isAreasH2, hitems]
    have htail : hasAreasH2List (mid ++ Node.elem "ul" items :: post) = false := by
      rw [hasAreasH2List_append]
      simp [hasAreasH2List, hmid, hul, hpost]
    rw [areasRawSibs_nil _ htail]
    simp only [areasRaw]
    rw [areasRawSibs_nil hcs hhc]
    simp
  | cons c cs ih =>
    rw [List.cons_append]
    simp only [areasRawSibs]
    have h12 : hasAreasH2 c = false ∧ hasAreasH2List cs = false := by
      simp only [hasAreasH2List, Bool.or_eq_false_iff] at hpre
      exact hpre
    simp only [isAreasH2_false_of c h12.1, Bool.false_eq_true, if_false,
      areasRaw_nil c h12.1, List.nil_append]
    exact ih h12.2

/-- Claim C1: for a parsed document with one level-2 heading whose
normalized text is `Areas of Interest` followed (after non-`ul`,
heading-free siblings) by a list, the first structural query returns
exactly the stripped, non-empty texts of that list's `li` items, in
document order; and for a document containing no such heading anywhere,
the query contributes zero items. -/
theorem spec_C1 (pre mid post hcs items : List Node)
    (hhead : xmlNormalize (stringValue (Node.elem "h2" hcs)) = "Areas of Interest")
    (hpre : hasAreasH2List pre = false)
    (hhc : hasAreasH2List hcs = false)
    (hmid : hasAreasH2List mid = false)
    (hmidul : ∀ n ∈ mid, isTag "ul" n = false)
    (hitems : hasAreasH2List items = false)
    (hpost : hasAreasH2List post = false) :
    areasQuery (Node.elem "body"
        (pre ++ Node.elem "h2" hcs :: mid ++ Node.elem "ul" items :: post))
      = cleanTexts (liTexts (Node.elem "ul" items)) ∧
    ∀ doc : Node, hasAreasH2 doc = false → areasQuery doc = [] := by
  constructor
  · unfold areasQuery
    congr 1
    simp only [areasRaw]
    have hh2 : isAreasH2 (Node.elem "h2" hcs) = true := by
      simp [isAreasH2, hhead]
    exact areasRawSibs_family pre mid post hcs items hh2 hpre hhc hmid hmidul hitems hpost
  · intro doc h
    unfold areasQuery
    rw [areasRaw_nil doc h]
    rfl

/-- Witness for C1 at a concrete document: the heading text normalizes to
`Areas of Interest`, the list items are stripped, the empty one is
dropped, and the result is `["Voting", "Elections"]` in document order. -/
theorem spec_C1_witness :
    areasQuery (Node.elem "body"
        ([Node.text "intro"] ++
          Node.elem "h2" [Node.text " Areas   of Interest "] ::
            [Node.text "break"] ++
              Node.elem "ul"
                  [Node.elem "li" [Node.text " Voting "],
                   Node.elem "li" [Node.text "Elections"],
                   Node.elem "li" [Node.text "  "]] ::
                [Node.text "tail"]))
      = ["Voting", "Elections"] := by
  have h := spec_C1 [Node.text "intro"] [Node.text "break"] [Node.text "tail"]
    [Node.text " Areas   of Interest "]
    [Node.elem "li" [Node.text " Voting "], Node.elem "li" [Node.text "Elections"],
     Node.elem "li" [Node.text "  "]]
    (by decide) (by decide) (by decide) (by decide) (by decide) (by decide) (by decide)
  rw [h.1]
  decide

/-!
Helper lemmas about the aggregation steps.
-/

theorem subjectCT_length (n : String) (mm : List (Int × Int)) :
    (subjectCT n mm).length = mm.length := by
  unfold subjectCT sortByYear
  rw [List.length_map, List.length_insertionSort]

theorem subjectCT_name_mem (n : String) (mm : List (Int × Int)) :
    ∀ r ∈ subjectCT n mm, r.name = n := by
  intro r hr
  unfold subjectCT at hr
  obtain ⟨p, _, hp⟩ := List.mem_map.mp hr
  rw [← hp]

theorem citationDF_cons (s : String × List (Int × Int))
    (ss : List (String × List (Int × Int))) :
    citationDF (s :: ss) = subjectCT s.1 s.2 ++ citationDF ss := by
  unfold citationDF
  rw [List.flatMap_cons]

theorem filter_subjectCT_self (n : String) (mm : List (Int × Int)) :
    (subjectCT n mm).filter (fun r => r.name = n) = subjectCT n mm := by
  apply List.filter_eq_self.mpr
  intro r hr
  simp [subjectCT_name_mem n mm r hr]

theorem filter_subjectCT_other (n n' : String) (hne : n' ≠ n) (mm : List (Int × Int)) :
    (subjectCT n' mm).filter (fun r => r.name = n) = [] := by
  apply List.filter_eq_nil_iff.mpr
  intro r hr
  simp [subjectCT_name_mem n' mm r hr, hne]

theorem citationDF_filter_nil (subs : List (String × List (Int × Int))) (name : String)
    (h : name ∉ subs.map Prod.fst) :
    (citationDF subs).filter (fun r => r.name = name) = [] := by
  induction subs with
  | nil => rfl
  | cons s ss ih =>
    rw [citationDF_cons, List.filter_append]
    have hs1 : s.1 ≠ name := by
      intro hEq
      exact h (by rw [List.map_cons, hEq]; exact List.mem_cons_self _ _)
    rw [filter_subjectCT_other name s.1 hs1, List.nil_append]
    exact ih (fun hmem => h (by rw [List.map_cons]; exact List.mem_cons_of_mem _ hmem))

theorem citationDF_filter (subs : List (String × List (Int × Int))) (name : String)
    (m : List (Int × Int)) (hdist : (subs.map Prod.fst).Nodup)
    (hmem : (name, m) ∈ subs) :
    (citationDF subs).filter (fun r => r.name = name) = subjectCT name m := by
  induction subs with
  | nil => cases hmem
  | cons s ss ih =>
    rw [citationDF_cons, List.filter_append]
    rw [List.map_cons] at hdist
    have hd := List.nodup_cons.mp hdist
    rcases List.mem_cons.mp hmem with heq | hmem'
    · rw [← heq]
      rw [← heq] at hd
      rw [filter_subjectCT_self]
      rw [citationDF_filter_nil ss name hd.1, List.append_nil]
    · have hs1 : s.1 ≠ name := by
        intro hEq
        apply hd.1
        rw [hEq]
        exact List.mem_map.mpr ⟨(name, m), hmem', rfl⟩
      rw [filter_subjectCT_other name s.1 hs1, List.nil_append]
      exact ih hd.2 hmem'

theorem qmedian_perm (l l' : List ℚ) (h : l.Perm l') : qmedian l = qmedian l' := by
  unfold qmedian
  have hlen := h.length_eq
  have hs : List.insertionSort (fun a b => a ≤ b) l =
      List.insertionSort (fun a b => a ≤ b) l' := by
    exact @List.eq_of_perm_of_sorted ℚ (fun a b : ℚ => a ≤ b)
      ⟨fun _ _ h1 h2 => le_antisymm h1 h2⟩ _ _
      ((List.perm_insertionSort _ l).trans (h.trans (List.perm_insertionSort _ l').symm))
      (List.sorted_insertionSort _ l) (List.sorted_insertionSort _ l')
  rw [hlen, hs]

theorem mem_namesOf (rows : List CiteRow) (n : String)
    (h : ∃ r ∈ rows, r.name = n) : n ∈ namesOf rows := by
  unfold namesOf
  rw [List.mem_insertionSort, List.mem_dedup]
  obtain ⟨r, hr, hn⟩ := h
  exact List.mem_map.mpr ⟨r, hr, hn⟩

/-- Claim C7: the combined long-form citation table has exactly
`sum of len(mapping)` rows; within each per-subject block the rows are
sorted ascending by year, carry that subject's name, and are a
permutation of the subject's `(year, count)` mapping; and the table is
the concatenation of the per-subject blocks in subject order. -/
theorem spec_C7 (subs : List (String × List (Int × Int))) (name : String)
    (m : List (Int × Int)) (s : String × List (Int × Int))
    (ss : List (String × List (Int × Int))) :
    (citationDF subs).length = (subs.map (fun q => q.2.length)).sum ∧
    List.Pairwise (fun a b : CiteRow => a.year ≤ b.year) (subjectCT name m) ∧
    ((subjectCT name m).map (fun r => (r.year, r.cites))).Perm m ∧
    (∀ r ∈ subjectCT name m, r.name = name) ∧
    citationDF (s :: ss) = subjectCT s.1 s.2 ++ citationDF ss := by
  refine ⟨?_, ?_, ?_, subjectCT_name_mem name m, citationDF_cons s ss⟩
  · induction subs with
    | nil => rfl
    | cons q qs ih =>
      rw [citationDF_cons, List.length_append, subjectCT_length, List.map_cons,
        List.sum_cons, ih]
  · unfold subjectCT sortByYear
    rw [List.pairwise_map]
    haveI : IsTotal (Int × Int) (fun a b : Int × Int => a.1 ≤ b.1) :=
      ⟨fun a b => Int.le_total a.1 b.1⟩
    haveI : IsTrans (Int × Int) (fun a b : Int × Int => a.1 ≤ b.1) :=
      ⟨fun _ _ _ hab hbc => Int.le_trans hab hbc⟩
    exact List.sorted_insertionSort _ m
  · have hmap : (subjectCT name m).map (fun r => (r.year, r.cites)) = sortByYear m := by
      unfold subjectCT
      rw [List.map_map]
      have hcomp : ((fun r : CiteRow => (r.year, r.cites)) ∘
          (fun p : Int × Int => ({ name := name, year := p.1, cites := p.2 } : CiteRow))) =
          fun p => p := by
        funext p
        rfl
      rw [hcomp, List.map_id']
    rw [hmap]
    unfold sortByYear
    exact List.perm_insertionSort _ m

/-- Witness for C7 at a concrete input: one subject with two years gives
a two-row table, and a concrete row of the block carries the subject's
name. -/
theorem spec_C7_witness :
    (citationDF [("A", [((2021 : Int), (5 : Int)), (2020, 3)])]).length = 2 ∧
    ({ name := "A", year := 2020, cites := 3 } : CiteRow).name = "A" := by
  constructor
  · rw [(spec_C7 [("A", [((2021 : Int), (5 : Int)), (2020, 3)])] "" [] ("", []) []).1]
    decide
  · exact (spec_C7 [] "A" [((2021 : Int), (5 : Int)), (2020, 3)] ("", []) []).2.2.2.1
      ⟨"A", 2020, 3⟩ (by decide)

/-- Claim C8: the citation aggregator computes, for each subject (with
subjects keyed by distinct names), the median of that subject's per-year
citation counts — the grouped median of the long-form table equals the
median of the subject's own mapping values, with no interpolation — and
for counts `[2, 4, 9]` the computed median is `4`. -/
theorem spec_C8 (subs : List (String × List (Int × Int))) (name : String)
    (m : List (Int × Int)) (hdist : (subs.map Prod.fst).Nodup)
    (hmem : (name, m) ∈ subs) (hne : m ≠ []) :
    (name, qmedian (m.map (fun p => (p.2 : ℚ)))) ∈ medianCites (citationDF subs) ∧
    qmedian [(2 : ℚ), 4, 9] = 4 := by
  constructor
  · unfold medianCites
    apply List.mem_map.mpr
    refine ⟨name, ?_, ?_⟩
    · apply mem_namesOf
      cases m with
      | nil => exact absurd rfl hne
      | cons p ps =>
        refine ⟨⟨name, p.1, p.2⟩, ?_, rfl⟩
        refine List.mem_flatMap.mpr ⟨(name, p :: ps), hmem, ?_⟩
        unfold subjectCT
        apply List.mem_map.mpr
        refine ⟨p, ?_, rfl⟩
        unfold sortByYear
        rw [List.mem_insertionSort]
        exact List.mem_cons_self _ _
    · rw [citationDF_filter subs name m hdist hmem]
      have hcast : (subjectCT name m).map (fun r => (r.cites : ℚ)) =
          (sortByYear m).map (fun p => (p.2 : ℚ)) := by
        unfold subjectCT
        rw [List.map_map]
        rfl
      have hq : qmedian ((subjectCT name m).map (fun r => (r.cites : ℚ))) =
          qmedian (m.map (fun p => (p.2 : ℚ))) := by
        rw [hcast]
        apply qmedian_perm
        apply List.Perm.map
        unfold sortByYear
        exact List.perm_insertionSort _ m
      rw [hq]
  · decide

/-- Witness for C8 at a concrete input: one subject with per-year counts
`2, 9, 4` across 2020, 2021, 2019 gets grouped median `4`. -/
theorem spec_C8_witness :
    ("A", (4 : ℚ)) ∈ medianCites (citationDF
      [("A", [((2020 : Int), (2 : Int)), (2021, 9), (2019, 4)])]) := by
  have h := (spec_C8 [("A", [((2020 : Int), (2 : Int)), (2021, 9), (2019, 4)])] "A"
    [((2020 : Int), (2 : Int)), (2021, 9), (2019, 4)]
    (by decide) (by decide) (by decide)).1
  have he : qmedian ([((2020 : Int), (2 : Int)), (2021, 9), (2019, 4)].map
      (fun p => (p.2 : ℚ))) = 4 := by decide
  rw [he] at h
  exact h

/-- Claim C9: the profile aggregator keeps the N input rows in input
order for the primary table (so it has exactly N rows with the fixed
`ProfileRow` column set), and the charting copy is a permutation of the
same rows sorted ascending by interest-item count. -/
theorem spec_C9 (rows : List ProfileRow) :
    scrapedProfiles rows = rows ∧
    (scrapedProfiles rows).length = rows.length ∧
    (scrapedProfilesSorted rows).Perm rows ∧
    List.Pairwise (fun a b : ProfileRow => a.n_interest_items ≤ b.n_interest_items)
      (scrapedProfilesSorted rows) := by
  have hself : scrapedProfiles rows = rows := by
    unfold scrapedProfiles
    induction rows with
    | nil => rfl
    | cons r rs ih => rw [List.flatMap_cons, ih]; rfl
  refine ⟨hself, by rw [hself], ?_, ?_⟩
  · unfold scrapedProfilesSorted
    rw [hself]
    exact List.perm_insertionSort _ rows
  · unfold scrapedProfilesSorted
    haveI : IsTotal ProfileRow (fun a b : ProfileRow =>
        a.n_interest_items ≤ b.n_interest_items) := ⟨fun a b => Nat.le_total _ _⟩
    haveI : IsTrans ProfileRow (fun a b : ProfileRow =>
        a.n_interest_items ≤ b.n_interest_items) :=
      ⟨fun _ _ _ hab hbc => Nat.le_trans hab hbc⟩
    exact List.sorted_insertionSort _ _
